import Mathlib

/-!
Shallow embedding of the undo/redo history manager of
`src/examples/react/src/demo.ts` (the `useHistoryManager` hook).

The manager keeps three mutable cells: `history` (a list of stored
snapshots), `currentIndex` (a JS number, initially `-1`), and
`isTransacting` (a boolean).  Snapshots hold a node array and an edge
array.  Because several spec claims are about aliasing (what `{...n}`
copies and what it shares), node objects and their nested `position`
objects live on an explicit heap: a node array is a list of references
into `Heap.nodes`, and each node record holds a reference into
`Heap.posns` for its nested position object.  Edge records are never
mutated by the code or the claims, so an edge is modelled as a bare
reference (a `Nat`), and copying the edge array (`[...state.edges]`)
produces a new list of the same references.
-/

/-- The nested `position` object of a node (mutable, heap-allocated). -/
structure Position where
  x : Int
  y : Int
deriving DecidableEq, Repr

/-- A node record: `data` stands for all scalar fields held directly in the
node object (id, label, ...); `posRef` is the reference to the heap-allocated
nested `position` object.  The JS spread `{...n}` copies `data` and `posRef`
but not the position object behind `posRef`. -/
structure NodeObj where
  data : String
  posRef : Nat
deriving DecidableEq, Repr

/-- The object heap: node records and position records, addressed by index. -/
structure Heap where
  nodes : List NodeObj
  posns : List Position
deriving DecidableEq, Repr

def defaultNodeObj : NodeObj := ⟨"", 0⟩

/-- `state.nodes.map(n => ({...n}))`: allocate one fresh node record per input
reference, each a field-for-field copy of the referenced record (so the new
record shares `posRef` with the original).  Returns the extended heap and the
list of fresh references, in allocation order. -/
def copyNodes : Heap → List Nat → Heap × List Nat
  | h, [] => (h, [])
  | h, r :: rs =>
    let h1 : Heap := { h with nodes := h.nodes ++ [h.nodes.getD r defaultNodeObj] }
    let rest := copyNodes h1 rs
    (rest.1, h.nodes.length :: rest.2)

/-- The argument shape of `addState` / `initialize` / `endTransaction`.  A JS
state object may lack the `nodes` or `edges` property (that property is then
`undefined`, hence falsy); an absent sequence is `none`. -/
structure HistoryState where
  nodes : Option (List Nat)
  edges : Option (List Nat)
deriving DecidableEq, Repr

/-- A stored history entry.  Entries are built only by `initialize` and by the
valid branch of `addState`, so both sequences are always present. -/
structure Entry where
  nodes : List Nat
  edges : List Nat
deriving DecidableEq, Repr

/-- `s` has both a node sequence and an edge sequence
(the guard `!state.nodes || !state.edges` fails). -/
def validState (s : HistoryState) : Prop :=
  s.nodes.isSome = true ∧ s.edges.isSome = true

instance (s : HistoryState) : Decidable (validState s) := by
  unfold validState; infer_instance

/-- The whole mutable state: the heap plus the three ref cells of
`useHistoryManager`, together with the `console.error` log. -/
structure World where
  heap : Heap
  history : List Entry
  currentIndex : Int
  isTransacting : Bool
  errorLog : List HistoryState
deriving DecidableEq, Repr

/-- The state of a freshly created manager (`useHistoryManager` lines 80-82):
`history = []`, `currentIndex = -1`, `isTransacting = false`. -/
def useHistoryManager (h : Heap) : World :=
  { heap := h, history := [], currentIndex := -1, isTransacting := false, errorLog := [] }

/-- JS `l.slice(0, e)` (nonnegative start 0; a negative end counts from the
end of the array, clamped at 0). -/
def jsSliceTo (l : List α) (e : Int) : List α :=
  if e < 0 then l.take (((l.length : Int) + e).toNat) else l.take e.toNat

/-- JS array indexing `l[i]`: `undefined` (here `none`) when out of bounds,
including negative indices. -/
def jsIndex (l : List α) (i : Int) : Option α :=
  if i < 0 then none else l.get? i.toNat

/-- `addState` (demo.ts lines 84-98).  On a malformed state it logs the error
and returns (a no-op on history, index and flag).  On a valid state it drops
everything after `currentIndex` (`slice(0, currentIndex + 1)`), appends a
per-node shallow copy of the input, keeps the last 50 entries (`slice(-50)`),
and points `currentIndex` at the new last entry.  The transaction flag is not
consulted. -/
def addState (w : World) (s : HistoryState) : World :=
  match s.nodes, s.edges with
  | some ns, some es =>
    let c := copyNodes w.heap ns
    let tmp := jsSliceTo w.history (w.currentIndex + 1) ++ [⟨c.2, es⟩]
    let hist := tmp.drop (tmp.length - 50)
    { w with heap := c.1, history := hist, currentIndex := (hist.length : Int) - 1 }
  | _, _ => { w with errorLog := w.errorLog ++ [s] }

/-- `initialize` (demo.ts lines 100-106): reset the history to a single copied
entry and set `currentIndex = 0`.  The code reads `initialState.nodes.map`
and `[...initialState.edges]` without a guard, so a state missing either
sequence would throw a TypeError; that failure is `none`.  (The source calls
this operation `initialize`, which is a reserved word here.) -/
def initializeHistory (w : World) (s : HistoryState) : Option World :=
  match s.nodes, s.edges with
  | some ns, some es =>
    let c := copyNodes w.heap ns
    some { w with heap := c.1, history := [⟨c.2, es⟩], currentIndex := 0 }
  | _, _ => none

/-- `undo` (demo.ts lines 108-114): if `currentIndex > 0`, decrement it and
return the entry now at `currentIndex`; otherwise return `null` and leave the
state untouched. -/
def undo (w : World) : World × Option Entry :=
  if 0 < w.currentIndex then
    let w1 := { w with currentIndex := w.currentIndex - 1 }
    (w1, jsIndex w1.history w1.currentIndex)
  else (w, none)

/-- `redo` (demo.ts lines 116-122): if `currentIndex < history.length - 1`,
increment it and return the entry now at `currentIndex`; otherwise return
`null` and leave the state untouched. -/
def redo (w : World) : World × Option Entry :=
  if w.currentIndex < (w.history.length : Int) - 1 then
    let w1 := { w with currentIndex := w.currentIndex + 1 }
    (w1, jsIndex w1.history w1.currentIndex)
  else (w, none)

/-- `startTransaction` (demo.ts lines 124-126). -/
def startTransaction (w : World) : World :=
  { w with isTransacting := true }

/-- `endTransaction` (demo.ts lines 128-131): clear the flag, then
`addState(state)`. -/
def endTransaction (w : World) (s : HistoryState) : World :=
  addState { w with isTransacting := false } s

/-- `getCurrentIndex` (demo.ts line 134). -/
def getCurrentIndex (w : World) : Int := w.currentIndex

/-- `getHistoryLength` (demo.ts line 135). -/
def getHistoryLength (w : World) : Nat := w.history.length

/-- `getCurrentState` (demo.ts line 142): `history.current[currentIndex.current]`,
returned directly, without any copying. -/
def getCurrentState (w : World) : Option Entry :=
  jsIndex w.history w.currentIndex

/-- One element of the timeline view (demo.ts lines 143-150). -/
structure TLEntry where
  id : Nat
  active : Bool
  state : Entry
deriving DecidableEq, Repr

/-- The body of `getTimeline`'s `map`: walk the stored entries, allocating a
per-node shallow copy of each entry (`state.nodes.map(n => ({...n}))`) and a
fresh edge list (`[...state.edges]`).  `cur` is `currentIndex`, `i` the index
of the first entry of `l`. -/
def getTimelineAux : Heap → Int → Nat → List Entry → Heap × List TLEntry
  | h, _, _, [] => (h, [])
  | h, cur, i, e :: rest =>
    let c := copyNodes h e.nodes
    let tl : TLEntry := ⟨i, decide ((i : Int) = cur), ⟨c.2, e.edges⟩⟩
    let r := getTimelineAux c.1 cur (i + 1) rest
    (r.1, tl :: r.2)

/-- `getTimeline` (demo.ts lines 143-150).  The copies it hands out are fresh
heap allocations, so the result carries the extended heap; the manager's
`history`, `currentIndex` and `isTransacting` cells are untouched. -/
def getTimeline (w : World) : World × List TLEntry :=
  let r := getTimelineAux w.heap w.currentIndex 0 w.history
  ({ w with heap := r.1 }, r.2)

/-- Overwrite the node record at reference `r`: models mutating the live node
object's own fields (`n.data = ...`, `n.position = otherPos`). -/
def setNode (w : World) (r : Nat) (v : NodeObj) : World :=
  { w with heap := { w.heap with nodes := w.heap.nodes.set r v } }

/-- Overwrite the position record at reference `p`: models in-place mutation
of a node's nested position object (`n.position.x = ...`). -/
def setPos (w : World) (p : Nat) (v : Position) : World :=
  { w with heap := { w.heap with posns := w.heap.posns.set p v } }

/-- Dereference a node: the observable content behind reference `r` — the
record's scalar fields together with the position object it points to. -/
def observeNode (h : Heap) (r : Nat) : Option (String × Position) :=
  match h.nodes.get? r with
  | some no =>
    match h.posns.get? no.posRef with
    | some p => some (no.data, p)
    | none => none
  | none => none

/-- The observable content of a stored entry: each node dereferenced, plus
the edge reference list. -/
def observeEntry (h : Heap) (e : Entry) : List (Option (String × Position)) × List Nat :=
  (e.nodes.map (observeNode h), e.edges)

/-- The entry that the valid branch of `addState` appends when the heap is `h`
and the input state is `{nodes: ns, edges: es}`. -/
def entryFor (h : Heap) (ns es : List Nat) : Entry :=
  ⟨(copyNodes h ns).2, es⟩

/-- Fold a sequence of `addState` calls. -/
def pushSeq (w : World) (ss : List HistoryState) : World :=
  ss.foldl addState w

/-- Like `pushSeq`, but also returns the ghost list of every entry the calls
appended, in order (assuming every state in `ss` is valid). -/
def pushAll : World → List HistoryState → World × List Entry
  | w, [] => (w, [])
  | w, s :: ss =>
    let e := entryFor w.heap (s.nodes.getD []) (s.edges.getD [])
    let r := pushAll (addState w s) ss
    (r.1, e :: r.2)

/-- The mutating operations of the manager's public surface. -/
inductive Op where
  | add (s : HistoryState)
  | undoOp
  | redoOp
  | startTx
  | endTx (s : HistoryState)
deriving DecidableEq, Repr

def applyOp (w : World) : Op → World
  | .add s => addState w s
  | .undoOp => (undo w).1
  | .redoOp => (redo w).1
  | .startTx => startTransaction w
  | .endTx s => endTransaction w s

def applyOps (w : World) (ops : List Op) : World :=
  ops.foldl applyOp w

/-! ### Helper lemmas about the heap and `copyNodes` -/

theorem copyNodes_posns (ns : List Nat) :
    ∀ (h : Heap), (copyNodes h ns).1.posns = h.posns := by
  induction ns with
  | nil => intro h; rfl
  | cons r rs ih =>
    intro h
    simpa [copyNodes] using ih { h with nodes := h.nodes ++ [h.nodes.getD r defaultNodeObj] }

theorem copyNodes_nodes_extend (ns : List Nat) :
    ∀ (h : Heap), ∃ ext, (copyNodes h ns).1.nodes = h.nodes ++ ext := by
  induction ns with
  | nil => intro h; exact ⟨[], by simp [copyNodes]⟩
  | cons r rs ih =>
    intro h
    obtain ⟨ext, hext⟩ := ih { h with nodes := h.nodes ++ [h.nodes.getD r defaultNodeObj] }
    refine ⟨[h.nodes.getD r defaultNodeObj] ++ ext, ?_⟩
    simpa [copyNodes] using hext

theorem copyNodes_nodes_length_le (ns : List Nat) (h : Heap) :
    h.nodes.length ≤ (copyNodes h ns).1.nodes.length := by
  obtain ⟨ext, hext⟩ := copyNodes_nodes_extend ns h
  simp [hext]

theorem copyNodes_refs_ge (ns : List Nat) :
    ∀ (h : Heap), ∀ x ∈ (copyNodes h ns).2, h.nodes.length ≤ x := by
  induction ns with
  | nil => intro h x hx; simp [copyNodes] at hx
  | cons r rs ih =>
    intro h x hx
    simp only [copyNodes, List.mem_cons] at hx
    rcases hx with rfl | hx
    · exact Nat.le_refl _
    · have := ih { h with nodes := h.nodes ++ [h.nodes.getD r defaultNodeObj] } x hx
      simp at this
      omega

theorem copyNodes_refs_lt (ns : List Nat) :
    ∀ (h : Heap), ∀ x ∈ (copyNodes h ns).2, x < (copyNodes h ns).1.nodes.length := by
  induction ns with
  | nil => intro h x hx; simp [copyNodes] at hx
  | cons r rs ih =>
    intro h x hx
    simp only [copyNodes, List.mem_cons] at hx
    have hlen := copyNodes_nodes_length_le rs
      { h with nodes := h.nodes ++ [h.nodes.getD r defaultNodeObj] }
    rcases hx with rfl | hx
    · simp only [copyNodes]
      have hstep : ({ h with nodes := h.nodes ++ [h.nodes.getD r defaultNodeObj] } : Heap).nodes.length
          = h.nodes.length + 1 := by simp
      omega
    · simpa [copyNodes] using ih _ x hx

theorem observeNode_mono {ext : List NodeObj} (h h2 : Heap) (r : Nat)
    (hr : r < h.nodes.length) (hn : h2.nodes = h.nodes ++ ext) (hp : h2.posns = h.posns) :
    observeNode h2 r = observeNode h r := by
  simp [observeNode, hn, hp, List.getElem?_append_left hr]

theorem observeNode_copy_cell (h : Heap) (r : Nat) (hr : r < h.nodes.length) :
    observeNode ⟨h.nodes ++ [h.nodes.getD r defaultNodeObj], h.posns⟩ h.nodes.length
      = observeNode h r := by
  simp [observeNode, List.getElem?_concat_length, List.getD_eq_getElem?_getD,
    List.getElem?_eq_getElem hr]

theorem copyNodes_observe (ns : List Nat) :
    ∀ (h : Heap), (∀ x ∈ ns, x < h.nodes.length) →
      ((copyNodes h ns).2).map (observeNode (copyNodes h ns).1) = ns.map (observeNode h) := by
  induction ns with
  | nil => intro h _; rfl
  | cons r rs ih =>
    intro h hv
    have hr : r < h.nodes.length := hv r (by simp)
    have hv1 : ∀ x ∈ rs, x < (Heap.mk (h.nodes ++ [h.nodes.getD r defaultNodeObj]) h.posns).nodes.length := by
      intro x hx
      have := hv x (by simp [hx])
      simp
      omega
    obtain ⟨ext, hext⟩ := copyNodes_nodes_extend rs ⟨h.nodes ++ [h.nodes.getD r defaultNodeObj], h.posns⟩
    have hposns := copyNodes_posns rs ⟨h.nodes ++ [h.nodes.getD r defaultNodeObj], h.posns⟩
    have hrec := ih _ hv1
    simp only [copyNodes, List.map_cons]
    congr 1
    · calc observeNode (copyNodes ⟨h.nodes ++ [h.nodes.getD r defaultNodeObj], h.posns⟩ rs).1 h.nodes.length
          = observeNode ⟨h.nodes ++ [h.nodes.getD r defaultNodeObj], h.posns⟩ h.nodes.length := by
            refine observeNode_mono _ _ _ (by simp) hext (by simpa using hposns)
        _ = observeNode h r := observeNode_copy_cell h r hr
    · calc ((copyNodes ⟨h.nodes ++ [h.nodes.getD r defaultNodeObj], h.posns⟩ rs).2).map
            (observeNode (copyNodes ⟨h.nodes ++ [h.nodes.getD r defaultNodeObj], h.posns⟩ rs).1)
          = rs.map (observeNode ⟨h.nodes ++ [h.nodes.getD r defaultNodeObj], h.posns⟩) := hrec
        _ = rs.map (observeNode h) := by
            refine List.map_congr_left ?_
            intro x hx
            exact observeNode_mono _ _ _ (hv x (by simp [hx])) rfl rfl

/-! ### Helper lemmas about `addState` and the other operations -/

theorem validState_elim {s : HistoryState} (h : validState s) :
    ∃ ns es, s = ⟨some ns, some es⟩ := by
  rcases s with ⟨sn, se⟩
  rcases h with ⟨h1, h2⟩
  cases sn with
  | none => simp at h1
  | some ns =>
    cases se with
    | none => simp at h2
    | some es => exact ⟨ns, es, rfl⟩

theorem addState_invalid (w : World) (s : HistoryState) (h : s.nodes = none ∨ s.edges = none) :
    addState w s = { w with errorLog := w.errorLog ++ [s] } := by
  rcases s with ⟨sn, se⟩
  rcases h with h | h
  · simp only at h
    subst h
    rfl
  · simp only at h
    subst h
    cases sn <;> rfl

theorem addState_valid_history (w : World) (ns es : List Nat) :
    (addState w ⟨some ns, some es⟩).history =
      (jsSliceTo w.history (w.currentIndex + 1) ++ [entryFor w.heap ns es]).drop
        ((jsSliceTo w.history (w.currentIndex + 1) ++ [entryFor w.heap ns es]).length - 50) := rfl

theorem addState_valid_heap (w : World) (ns es : List Nat) :
    (addState w ⟨some ns, some es⟩).heap = (copyNodes w.heap ns).1 := rfl

theorem addState_valid_currentIndex (w : World) (ns es : List Nat) :
    (addState w ⟨some ns, some es⟩).currentIndex
      = ((addState w ⟨some ns, some es⟩).history.length : Int) - 1 := rfl

theorem addState_isTransacting (w : World) (s : HistoryState) :
    (addState w s).isTransacting = w.isTransacting := by
  rcases s with ⟨sn, se⟩
  cases sn <;> cases se <;> rfl

theorem addState_tip (w : World) {s : HistoryState} (hs : validState s) :
    (addState w s).currentIndex = ((addState w s).history.length : Int) - 1 := by
  obtain ⟨ns, es, rfl⟩ := validState_elim hs
  exact addState_valid_currentIndex w ns es

theorem addState_valid_length_le (w : World) (ns es : List Nat) :
    (addState w ⟨some ns, some es⟩).history.length ≤ 50 := by
  rw [addState_valid_history]
  rw [List.length_drop]
  omega

theorem applyOp_length_le (w : World) (op : Op) (h : w.history.length ≤ 50) :
    (applyOp w op).history.length ≤ 50 := by
  cases op with
  | add s =>
    rcases s with ⟨sn, se⟩
    cases sn with
    | none => simpa [applyOp, addState_invalid w ⟨none, se⟩ (Or.inl rfl)] using h
    | some ns =>
      cases se with
      | none => simpa [applyOp, addState_invalid w ⟨some ns, none⟩ (Or.inr rfl)] using h
      | some es => exact addState_valid_length_le w ns es
  | undoOp =>
    simp only [applyOp]
    unfold undo
    split <;> simpa using h
  | redoOp =>
    simp only [applyOp]
    unfold redo
    split <;> simpa using h
  | startTx => simpa [applyOp, startTransaction] using h
  | endTx s =>
    rcases s with ⟨sn, se⟩
    cases sn with
    | none =>
      simpa [applyOp, endTransaction, addState_invalid _ ⟨none, se⟩ (Or.inl rfl)] using h
    | some ns =>
      cases se with
      | none =>
        simpa [applyOp, endTransaction, addState_invalid _ ⟨some ns, none⟩ (Or.inr rfl)] using h
      | some es => exact addState_valid_length_le _ ns es

theorem applyOps_length_le (ops : List Op) :
    ∀ (w : World), w.history.length ≤ 50 → (applyOps w ops).history.length ≤ 50 := by
  induction ops with
  | nil => intro w h; simpa [applyOps] using h
  | cons op ops ih =>
    intro w h
    exact ih (applyOp w op) (applyOp_length_le w op h)

/-! ### The trailing-window shape of the history under pushes at the tip -/

theorem jsSliceTo_all (l : List α) : jsSliceTo l ((l.length : Int) - 1 + 1) = l := by
  have h1 : ((l.length : Int) - 1 + 1) = (l.length : Int) := by ring
  rw [h1]
  unfold jsSliceTo
  rw [if_neg (by omega)]
  simp

theorem pushSeq_nil (w : World) : pushSeq w [] = w := rfl

theorem pushSeq_cons (w : World) (s : HistoryState) (ss : List HistoryState) :
    pushSeq w (s :: ss) = pushSeq (addState w s) ss := rfl

theorem pushSeq_append_single (w : World) (ss : List HistoryState) (s : HistoryState) :
    pushSeq w (ss ++ [s]) = addState (pushSeq w ss) s := by
  simp [pushSeq, List.foldl_append]

theorem pushAll_fst (ss : List HistoryState) :
    ∀ (w : World), (pushAll w ss).1 = pushSeq w ss := by
  induction ss with
  | nil => intro w; rfl
  | cons s ss ih => intro w; simpa [pushAll, pushSeq_cons] using ih (addState w s)

theorem pushAll_length (ss : List HistoryState) :
    ∀ (w : World), (pushAll w ss).2.length = ss.length := by
  induction ss with
  | nil => intro w; rfl
  | cons s ss ih => intro w; simpa [pushAll] using ih (addState w s)

theorem addState_at_tip (w : World) (ns es : List Nat)
    (htip : w.currentIndex = (w.history.length : Int) - 1) :
    (addState w ⟨some ns, some es⟩).history
      = (w.history ++ [entryFor w.heap ns es]).drop (w.history.length + 1 - 50) := by
  rw [addState_valid_history, htip, jsSliceTo_all]
  congr 1
  simp

theorem pushSeq_window (ss : List HistoryState) :
    ∀ (w : World) (acc : List Entry),
      (∀ s ∈ ss, validState s) →
      w.currentIndex = (w.history.length : Int) - 1 →
      w.history = acc.drop (acc.length - 50) →
      (pushSeq w ss).history = (acc ++ (pushAll w ss).2).drop (acc.length + ss.length - 50) := by
  induction ss with
  | nil =>
    intro w acc _ _ hacc
    simpa [pushSeq, pushAll] using hacc
  | cons s ss ih =>
    intro w acc hv htip hacc
    obtain ⟨ns, es, rfl⟩ := validState_elim (hv s (by simp))
    have hstep : (addState w ⟨some ns, some es⟩).history
        = (acc ++ [entryFor w.heap ns es]).drop (acc.length + 1 - 50) := by
      rw [addState_at_tip w ns es htip, hacc]
      have hk : acc.length - 50 ≤ acc.length := Nat.sub_le _ _
      rw [← List.drop_append_of_le_length hk, List.drop_drop]
      congr 1
      have hlen : (acc.drop (acc.length - 50)).length = acc.length - (acc.length - 50) :=
        List.length_drop _ _
      omega
    have htip1 := addState_valid_currentIndex w ns es
    have hacc1 : (addState w ⟨some ns, some es⟩).history
        = (acc ++ [entryFor w.heap ns es]).drop ((acc ++ [entryFor w.heap ns es]).length - 50) := by
      rw [hstep]
      congr 1
      simp
    have hrec := ih (addState w ⟨some ns, some es⟩) (acc ++ [entryFor w.heap ns es])
      (fun x hx => hv x (by simp [hx])) htip1 hacc1
    rw [pushSeq_cons, hrec]
    have hg : pushAll w (⟨some ns, some es⟩ :: ss)
        = ((pushAll (addState w ⟨some ns, some es⟩) ss).1,
           entryFor w.heap ns es :: (pushAll (addState w ⟨some ns, some es⟩) ss).2) := rfl
    rw [hg]
    rw [List.append_assoc]
    congr 1
    simp only [List.length_append, List.length_cons, List.length_singleton, List.length_nil]
    omega

theorem initializeHistory_some {w w1 : World} {s : HistoryState}
    (h : initializeHistory w s = some w1) :
    ∃ ns es, s = ⟨some ns, some es⟩ ∧
      w1 = { w with heap := (copyNodes w.heap ns).1,
                    history := [entryFor w.heap ns es], currentIndex := 0 } := by
  rcases s with ⟨sn, se⟩
  cases sn with
  | none => simp [initializeHistory] at h
  | some ns =>
    cases se with
    | none => simp [initializeHistory] at h
    | some es =>
      refine ⟨ns, es, rfl, ?_⟩
      have h2 := h
      simp only [initializeHistory, Option.some.injEq] at h2
      simp only [entryFor]
      exact h2.symm

/-! ### The claims -/

/-- C1: for every sequence of valid `addState` calls made after `initialize`,
immediately after each call `currentIndex` equals `history.length - 1` (the
index points at the just-written entry). -/
theorem addState_currentIndex_eq_length_sub_one
    (h0 : Heap) (s0 : HistoryState) (w1 : World)
    (hinit : initializeHistory (useHistoryManager h0) s0 = some w1)
    (ss : List HistoryState) (hv : ∀ s ∈ ss, validState s)
    (k : Nat) (hk : k < ss.length) :
    (pushSeq w1 (ss.take (k + 1))).currentIndex
      = ((pushSeq w1 (ss.take (k + 1))).history.length : Int) - 1 := by
  have htake : ss.take (k + 1) = ss.take k ++ [ss[k]] := by
    rw [List.take_succ]
    simp [List.getElem?_eq_getElem hk]
  rw [htake, pushSeq_append_single]
  exact addState_tip _ (hv _ (List.getElem_mem hk))

theorem addState_currentIndex_eq_length_sub_one_witness :
    (initializeHistory (useHistoryManager ⟨[], []⟩) ⟨some [], some []⟩
        = some ⟨⟨[], []⟩, [⟨[], []⟩], 0, false, []⟩)
    ∧ (pushSeq ⟨⟨[], []⟩, [⟨[], []⟩], 0, false, []⟩
          ([⟨some [], some []⟩].take (0 + 1))).currentIndex
      = ((pushSeq ⟨⟨[], []⟩, [⟨[], []⟩], 0, false, []⟩
          ([⟨some [], some []⟩].take (0 + 1))).history.length : Int) - 1 :=
  ⟨by decide,
   addState_currentIndex_eq_length_sub_one ⟨[], []⟩ ⟨some [], some []⟩
     ⟨⟨[], []⟩, [⟨[], []⟩], 0, false, []⟩ (by decide)
     [⟨some [], some []⟩] (by decide) 0 (by decide)⟩

/-- C2: when `currentIndex` is not at the tip (after one or more undos), a
valid `addState` discards every entry after `currentIndex`, appends a copy of
the new state, and the new history length is the pre-call `currentIndex`
plus two. -/
theorem addState_truncates_and_appends
    (w : World) (ns es : List Nat)
    (hlen : w.history.length ≤ 50)
    (hge : 0 ≤ w.currentIndex)
    (htip : w.currentIndex < (w.history.length : Int) - 1) :
    (addState w ⟨some ns, some es⟩).history
        = w.history.take (w.currentIndex.toNat + 1) ++ [entryFor w.heap ns es]
      ∧ ((addState w ⟨some ns, some es⟩).history.length : Int) = w.currentIndex + 2
      ∧ ((∀ r ∈ ns, r < w.heap.nodes.length) →
          (observeEntry (addState w ⟨some ns, some es⟩).heap (entryFor w.heap ns es)).1
            = ns.map (observeNode w.heap)) := by
  have hsl : jsSliceTo w.history (w.currentIndex + 1)
      = w.history.take (w.currentIndex.toNat + 1) := by
    unfold jsSliceTo
    rw [if_neg (by omega)]
    congr 1
    omega
  have hzero : (w.history.take (w.currentIndex.toNat + 1)
      ++ [entryFor w.heap ns es]).length - 50 = 0 := by
    simp only [List.length_append, List.length_take, List.length_singleton]
    omega
  have hhist : (addState w ⟨some ns, some es⟩).history
      = w.history.take (w.currentIndex.toNat + 1) ++ [entryFor w.heap ns es] := by
    rw [addState_valid_history, hsl, hzero, List.drop_zero]
  refine ⟨hhist, ?_, ?_⟩
  · rw [hhist]
    simp only [List.length_append, List.length_take, List.length_singleton]
    push_cast
    omega
  · intro hv
    rw [addState_valid_heap]
    exact copyNodes_observe ns w.heap hv

theorem addState_truncates_and_appends_witness :
    ((⟨⟨[], []⟩, [⟨[], [1]⟩, ⟨[], [2]⟩, ⟨[], [3]⟩], 0, false, []⟩ : World).history.length ≤ 50)
    ∧ (addState ⟨⟨[], []⟩, [⟨[], [1]⟩, ⟨[], [2]⟩, ⟨[], [3]⟩], 0, false, []⟩
          ⟨some [], some [9]⟩).history
        = [⟨[], [1]⟩, ⟨[], [9]⟩]
    ∧ ((addState ⟨⟨[], []⟩, [⟨[], [1]⟩, ⟨[], [2]⟩, ⟨[], [3]⟩], 0, false, []⟩
          ⟨some [], some [9]⟩).history.length : Int) = 0 + 2 := by
  have h := addState_truncates_and_appends
    ⟨⟨[], []⟩, [⟨[], [1]⟩, ⟨[], [2]⟩, ⟨[], [3]⟩], 0, false, []⟩ [] [9]
    (by decide) (by decide) (by decide)
  exact ⟨by decide, by rw [h.1]; decide, by rw [h.2.1]⟩

/-- C3: over every sequence of operations the history length never exceeds
50; and after `initialize` followed by at least 50 valid `addState` calls the
retained history is exactly the window of the 50 most recent pushed entries
(earlier pushes, and the initial entry, have been evicted from the front). -/
theorem history_bounded_and_window :
    (∀ (w : World) (ops : List Op), w.history.length ≤ 50 →
        (applyOps w ops).history.length ≤ 50)
    ∧ (∀ (h0 : Heap) (s0 : HistoryState) (w1 : World),
        initializeHistory (useHistoryManager h0) s0 = some w1 →
        ∀ (ss : List HistoryState), (∀ s ∈ ss, validState s) → 50 ≤ ss.length →
          (pushSeq w1 ss).history = (pushAll w1 ss).2.drop (ss.length - 50)
          ∧ (pushSeq w1 ss).history.length = 50
          ∧ (pushAll w1 ss).2.length = ss.length) := by
  constructor
  · intro w ops h
    exact applyOps_length_le ops w h
  · intro h0 s0 w1 hinit ss hv h50
    obtain ⟨ns, es, rfl, hw1⟩ := initializeHistory_some hinit
    have htip : w1.currentIndex = (w1.history.length : Int) - 1 := by
      rw [hw1]; simp
    have hhist : w1.history = [entryFor (useHistoryManager h0).heap ns es] := by
      rw [hw1]
    have hacc : w1.history
        = [entryFor (useHistoryManager h0).heap ns es].drop
            ([entryFor (useHistoryManager h0).heap ns es].length - 50) := by
      rw [hhist]
      simp
    have hwin := pushSeq_window ss w1 [entryFor (useHistoryManager h0).heap ns es] hv htip hacc
    rw [List.length_singleton] at hwin
    have harith : 1 + ss.length - 50 = (ss.length - 50) + 1 := by omega
    rw [harith, List.singleton_append, List.drop_succ_cons] at hwin
    refine ⟨hwin, ?_, pushAll_length ss _⟩
    rw [hwin]
    rw [List.length_drop, pushAll_length]
    omega

theorem history_bounded_and_window_witness :
    ((useHistoryManager ⟨[], []⟩).history.length ≤ 50
      ∧ (applyOps (useHistoryManager ⟨[], []⟩)
          [Op.add ⟨some [], some []⟩, Op.undoOp]).history.length ≤ 50)
    ∧ ((pushSeq ⟨⟨[], []⟩, [⟨[], []⟩], 0, false, []⟩
          (List.replicate 50 ⟨some [], some [4]⟩)).history.length = 50) := by
  constructor
  · exact ⟨by decide,
      history_bounded_and_window.1 (useHistoryManager ⟨[], []⟩)
        [Op.add ⟨some [], some []⟩, Op.undoOp] (by decide)⟩
  · exact (history_bounded_and_window.2 ⟨[], []⟩ ⟨some [], some []⟩
      ⟨⟨[], []⟩, [⟨[], []⟩], 0, false, []⟩ (by decide)
      (List.replicate 50 ⟨some [], some [4]⟩) (by decide) (by decide)).2.1

/-- C4: when `currentIndex` is strictly inside the history, `undo`
immediately followed by `redo` returns the manager to exactly its previous
state, and `redo` returns exactly the snapshot that was current before the
`undo` (the entry `getCurrentState` saw). -/
theorem undo_redo_roundtrip (w : World)
    (h1 : 0 < w.currentIndex) (h2 : w.currentIndex < (w.history.length : Int) - 1) :
    (redo (undo w).1).1 = w ∧ (redo (undo w).1).2 = getCurrentState w := by
  have hix : w.currentIndex - 1 + 1 = w.currentIndex := by omega
  have hu : (undo w).1 = { w with currentIndex := w.currentIndex - 1 } := by
    unfold undo
    rw [if_pos h1]
  have hc : ({ w with currentIndex := w.currentIndex - 1 } : World).currentIndex
      < (({ w with currentIndex := w.currentIndex - 1 } : World).history.length : Int) - 1 := by
    show w.currentIndex - 1 < (w.history.length : Int) - 1
    omega
  rw [hu]
  unfold redo
  rw [if_pos hc]
  constructor
  · show ({ w with currentIndex := w.currentIndex - 1 + 1 } : World) = w
    rw [hix]
  · show jsIndex w.history (w.currentIndex - 1 + 1) = getCurrentState w
    rw [hix]
    rfl

theorem undo_redo_roundtrip_witness :
    (0 : Int) < (⟨⟨[], []⟩, [⟨[], [1]⟩, ⟨[], [2]⟩, ⟨[], [3]⟩], 1, false, []⟩ : World).currentIndex
    ∧ (redo (undo ⟨⟨[], []⟩, [⟨[], [1]⟩, ⟨[], [2]⟩, ⟨[], [3]⟩], 1, false, []⟩).1).1
        = ⟨⟨[], []⟩, [⟨[], [1]⟩, ⟨[], [2]⟩, ⟨[], [3]⟩], 1, false, []⟩
    ∧ (redo (undo ⟨⟨[], []⟩, [⟨[], [1]⟩, ⟨[], [2]⟩, ⟨[], [3]⟩], 1, false, []⟩).1).2
        = getCurrentState ⟨⟨[], []⟩, [⟨[], [1]⟩, ⟨[], [2]⟩, ⟨[], [3]⟩], 1, false, []⟩ := by
  have h := undo_redo_roundtrip ⟨⟨[], []⟩, [⟨[], [1]⟩, ⟨[], [2]⟩, ⟨[], [3]⟩], 1, false, []⟩
    (by decide) (by decide)
  exact ⟨by decide, h.1, h.2⟩

/-- C5: `undo` at index 0 returns `null` and leaves the whole manager state
(including every stored entry) unchanged, and `redo` at the last index
returns `null` and leaves the whole state unchanged — no wraparound, no
error. -/
theorem undo_redo_boundary_noop (w : World) :
    (w.currentIndex = 0 → undo w = (w, none))
    ∧ (w.currentIndex = (w.history.length : Int) - 1 → redo w = (w, none)) := by
  constructor
  · intro h
    unfold undo
    rw [if_neg (by omega)]
  · intro h
    unfold redo
    rw [if_neg (by omega)]

theorem undo_redo_boundary_noop_witness :
    ((⟨⟨[], []⟩, [⟨[], [1]⟩, ⟨[], [2]⟩], 0, false, []⟩ : World).currentIndex = 0
      ∧ undo ⟨⟨[], []⟩, [⟨[], [1]⟩, ⟨[], [2]⟩], 0, false, []⟩
          = (⟨⟨[], []⟩, [⟨[], [1]⟩, ⟨[], [2]⟩], 0, false, []⟩, none))
    ∧ ((⟨⟨[], []⟩, [⟨[], [1]⟩, ⟨[], [2]⟩], 1, false, []⟩ : World).currentIndex
          = ((⟨⟨[], []⟩, [⟨[], [1]⟩, ⟨[], [2]⟩], 1, false, []⟩ : World).history.length : Int) - 1
      ∧ redo ⟨⟨[], []⟩, [⟨[], [1]⟩, ⟨[], [2]⟩], 1, false, []⟩
          = (⟨⟨[], []⟩, [⟨[], [1]⟩, ⟨[], [2]⟩], 1, false, []⟩, none)) :=
  ⟨⟨by decide, (undo_redo_boundary_noop ⟨⟨[], []⟩, [⟨[], [1]⟩, ⟨[], [2]⟩], 0, false, []⟩).1
      (by decide)⟩,
   ⟨by decide, (undo_redo_boundary_noop ⟨⟨[], []⟩, [⟨[], [1]⟩, ⟨[], [2]⟩], 1, false, []⟩).2
      (by decide)⟩⟩

/-- C9: `addState` on a state missing the node sequence or the edge sequence
logs the error and is otherwise a no-op: history, `currentIndex` and the
transaction flag are unchanged, and (being a total function) no exception
propagates. -/
theorem addState_invalid_logs_and_noop (w : World) (s : HistoryState)
    (h : s.nodes = none ∨ s.edges = none) :
    (addState w s).history = w.history
    ∧ (addState w s).currentIndex = w.currentIndex
    ∧ (addState w s).isTransacting = w.isTransacting
    ∧ (addState w s).errorLog = w.errorLog ++ [s] := by
  rw [addState_invalid w s h]
  exact ⟨rfl, rfl, rfl, rfl⟩

theorem addState_invalid_logs_and_noop_witness :
    ((⟨none, some [5]⟩ : HistoryState).nodes = none ∨ (⟨none, some [5]⟩ : HistoryState).edges = none)
    ∧ (addState ⟨⟨[], []⟩, [⟨[], [1]⟩], 0, false, []⟩ ⟨none, some [5]⟩).history = [⟨[], [1]⟩]
    ∧ (addState ⟨⟨[], []⟩, [⟨[], [1]⟩], 0, false, []⟩ ⟨none, some [5]⟩).currentIndex = 0
    ∧ (addState ⟨⟨[], []⟩, [⟨[], [1]⟩], 0, false, []⟩ ⟨none, some [5]⟩).errorLog
        = [] ++ [⟨none, some [5]⟩] := by
  have h := addState_invalid_logs_and_noop ⟨⟨[], []⟩, [⟨[], [1]⟩], 0, false, []⟩
    ⟨none, some [5]⟩ (Or.inl rfl)
  exact ⟨Or.inl rfl, h.1, h.2.1, h.2.2.2⟩

/-- C10: before `initialize` has ever been called (history empty,
`currentIndex = -1`), both `undo` and `redo` return `null` and leave the
history, index and transaction flag untouched. -/
theorem uninitialized_undo_redo_noop (h : Heap) :
    undo (useHistoryManager h) = (useHistoryManager h, none)
    ∧ redo (useHistoryManager h) = (useHistoryManager h, none)
    ∧ (useHistoryManager h).history = []
    ∧ (useHistoryManager h).currentIndex = -1
    ∧ (useHistoryManager h).isTransacting = false := by
  refine ⟨?_, ?_, rfl, rfl, rfl⟩
  · unfold undo
    rw [if_neg (show ¬ (0 : Int) < (useHistoryManager h).currentIndex by
      show ¬ (0 : Int) < -1
      norm_num)]
  · unfold redo
    rw [if_neg (show ¬ (useHistoryManager h).currentIndex
        < ((useHistoryManager h).history.length : Int) - 1 by
      show ¬ (-1 : Int) < (([] : List Entry).length : Int) - 1
      norm_num)]

/-- C6 counterexample: `addState` never consults `isTransacting`, so a call
made while the flag is true does add a history entry (the flag by itself
suppresses nothing; suppression happens only because the UI layer makes no
`addState` calls mid-gesture). -/
theorem addState_while_transacting_adds_entry :
    (⟨⟨[], []⟩, [⟨[], [1]⟩], 0, true, []⟩ : World).isTransacting = true
    ∧ (addState ⟨⟨[], []⟩, [⟨[], [1]⟩], 0, true, []⟩ ⟨some [], some [2]⟩).history.length = 2
    ∧ (addState ⟨⟨[], []⟩, [⟨[], [1]⟩], 0, true, []⟩ ⟨some [], some [2]⟩).isTransacting = true := by
  decide

/-- C6 amended: the transaction flag does not itself suppress `addState`;
during a gesture the UI layer simply performs no manager calls, so a gesture
modelled as `startTransaction` directly followed by `endTransaction(state)`
clears the flag and performs exactly one `addState`: at the tip and below the
cap it appends exactly one new entry, a copy of the final state. -/
theorem transaction_single_commit (w : World) (ns es : List Nat)
    (htip : w.currentIndex = (w.history.length : Int) - 1)
    (hlen : w.history.length < 50) :
    (endTransaction (startTransaction w) ⟨some ns, some es⟩).isTransacting = false
    ∧ (endTransaction (startTransaction w) ⟨some ns, some es⟩).history
        = w.history ++ [entryFor w.heap ns es]
    ∧ (endTransaction (startTransaction w) ⟨some ns, some es⟩).history.length
        = w.history.length + 1
    ∧ ((∀ r ∈ ns, r < w.heap.nodes.length) →
        (observeEntry (endTransaction (startTransaction w) ⟨some ns, some es⟩).heap
            (entryFor w.heap ns es)).1
          = ns.map (observeNode w.heap)) := by
  have hv : ({ w with isTransacting := false } : World).currentIndex
      = (({ w with isTransacting := false } : World).history.length : Int) - 1 := htip
  have hhist : (endTransaction (startTransaction w) ⟨some ns, some es⟩).history
      = w.history ++ [entryFor w.heap ns es] := by
    show (addState { w with isTransacting := false } ⟨some ns, some es⟩).history
      = w.history ++ [entryFor w.heap ns es]
    rw [addState_at_tip { w with isTransacting := false } ns es hv]
    have hz : ({ w with isTransacting := false } : World).history.length + 1 - 50 = 0 := by
      show w.history.length + 1 - 50 = 0
      omega
    rw [hz, List.drop_zero]
  refine ⟨?_, hhist, ?_, ?_⟩
  · show (addState { w with isTransacting := false } ⟨some ns, some es⟩).isTransacting = false
    rw [addState_isTransacting]
  · rw [hhist]
    simp
  · intro hval
    show (observeEntry (addState { w with isTransacting := false }
        ⟨some ns, some es⟩).heap (entryFor w.heap ns es)).1 = ns.map (observeNode w.heap)
    rw [addState_valid_heap]
    exact copyNodes_observe ns w.heap hval

theorem transaction_single_commit_witness :
    ((⟨⟨[], []⟩, [⟨[], [1]⟩], 0, false, []⟩ : World).history.length < 50)
    ∧ (endTransaction (startTransaction ⟨⟨[], []⟩, [⟨[], [1]⟩], 0, false, []⟩)
        ⟨some [], some [2]⟩).isTransacting = false
    ∧ (endTransaction (startTransaction ⟨⟨[], []⟩, [⟨[], [1]⟩], 0, false, []⟩)
        ⟨some [], some [2]⟩).history
        = [⟨[], [1]⟩] ++ [entryFor ⟨[], []⟩ [] [2]]
    ∧ (endTransaction (startTransaction ⟨⟨[], []⟩, [⟨[], [1]⟩], 0, false, []⟩)
        ⟨some [], some [2]⟩).history.length = 2 := by
  have h := transaction_single_commit ⟨⟨[], []⟩, [⟨[], [1]⟩], 0, false, []⟩ [] [2]
    (by decide) (by decide)
  exact ⟨by decide, h.1, h.2.1, h.2.2.1⟩

theorem observeNode_setNode_ne (h : Heap) (r x : Nat) (v : NodeObj) (hne : r ≠ x) :
    observeNode ⟨h.nodes.set r v, h.posns⟩ x = observeNode h x := by
  simp [observeNode, List.getElem?_set_ne hne]

/-- C7 counterexample: the per-node copy `{...n}` is shallow, so the stored
snapshot's node shares its nested `position` object with the live node.  With
one live node (record 0, position record 0), `addState` stores the copy as
record 1; mutating the live node's nested position in place
(`n.position.x = 5`, i.e. writing position record 0) changes the observable
content of the stored snapshot's node from ("A", (0,0)) to ("A", (5,0)). -/
theorem addState_nested_position_shared :
    (addState ⟨⟨[⟨"A", 0⟩], [⟨0, 0⟩]⟩, [], -1, false, []⟩ ⟨some [0], some []⟩).history
      = [⟨[1], []⟩]
    ∧ (observeEntry (addState ⟨⟨[⟨"A", 0⟩], [⟨0, 0⟩]⟩, [], -1, false, []⟩
        ⟨some [0], some []⟩).heap ⟨[1], []⟩).1
      = [some ("A", ⟨0, 0⟩)]
    ∧ (observeEntry (setPos (addState ⟨⟨[⟨"A", 0⟩], [⟨0, 0⟩]⟩, [], -1, false, []⟩
        ⟨some [0], some []⟩) 0 ⟨5, 0⟩).heap ⟨[1], []⟩).1
      = [some ("A", ⟨5, 0⟩)] := by
  decide

/-- C7 amended: the copy `addState` stores is isolated one level deep:
overwriting the fields of a live node record after the call (any reference
that was valid before the call, which covers every node passed in) never
changes the observable content of the stored entry, and the stored entry's
observable content equals that of the input nodes at call time.  (Isolation
does not extend to nested objects: in-place mutation of a shared `position`
record is visible in the snapshot, as the counterexample shows.) -/
theorem addState_shallow_copy_isolation (w : World) (ns es : List Nat) (r : Nat) (v : NodeObj)
    (hval : ∀ x ∈ ns, x < w.heap.nodes.length)
    (hr : r < w.heap.nodes.length) :
    (observeEntry (setNode (addState w ⟨some ns, some es⟩) r v).heap (entryFor w.heap ns es)).1
      = (observeEntry (addState w ⟨some ns, some es⟩).heap (entryFor w.heap ns es)).1
    ∧ (observeEntry (addState w ⟨some ns, some es⟩).heap (entryFor w.heap ns es)).1
      = ns.map (observeNode w.heap) := by
  constructor
  · show ((copyNodes w.heap ns).2).map
        (observeNode ⟨(copyNodes w.heap ns).1.nodes.set r v, (copyNodes w.heap ns).1.posns⟩)
      = ((copyNodes w.heap ns).2).map (observeNode (copyNodes w.heap ns).1)
    refine List.map_congr_left ?_
    intro x hx
    have hge := copyNodes_refs_ge ns w.heap x hx
    have hne : r ≠ x := by omega
    exact observeNode_setNode_ne (copyNodes w.heap ns).1 r x v hne
  · rw [addState_valid_heap]
    exact copyNodes_observe ns w.heap hval

theorem addState_shallow_copy_isolation_witness :
    ((0 : Nat) < (⟨⟨[⟨"A", 0⟩], [⟨0, 0⟩]⟩, [], -1, false, []⟩ : World).heap.nodes.length)
    ∧ (observeEntry (setNode (addState ⟨⟨[⟨"A", 0⟩], [⟨0, 0⟩]⟩, [], -1, false, []⟩
          ⟨some [0], some []⟩) 0 ⟨"B", 0⟩).heap
        (entryFor ⟨[⟨"A", 0⟩], [⟨0, 0⟩]⟩ [0] [])).1
      = (observeEntry (addState ⟨⟨[⟨"A", 0⟩], [⟨0, 0⟩]⟩, [], -1, false, []⟩
          ⟨some [0], some []⟩).heap (entryFor ⟨[⟨"A", 0⟩], [⟨0, 0⟩]⟩ [0] [])).1
    ∧ (observeEntry (addState ⟨⟨[⟨"A", 0⟩], [⟨0, 0⟩]⟩, [], -1, false, []⟩
          ⟨some [0], some []⟩).heap (entryFor ⟨[⟨"A", 0⟩], [⟨0, 0⟩]⟩ [0] [])).1
      = [0].map (observeNode ⟨[⟨"A", 0⟩], [⟨0, 0⟩]⟩) := by
  have h := addState_shallow_copy_isolation ⟨⟨[⟨"A", 0⟩], [⟨0, 0⟩]⟩, [], -1, false, []⟩
    [0] [] 0 ⟨"B", 0⟩ (by decide) (by decide)
  exact ⟨by decide, h.1, h.2⟩

/-! ### Helper lemmas about `getTimeline` -/

theorem getTimelineAux_extends (cur : Int) (l : List Entry) :
    ∀ (h : Heap) (i : Nat), ∃ ext, (getTimelineAux h cur i l).1.nodes = h.nodes ++ ext
      ∧ (getTimelineAux h cur i l).1.posns = h.posns := by
  induction l with
  | nil => intro h i; exact ⟨[], by simp [getTimelineAux], rfl⟩
  | cons e rest ih =>
    intro h i
    obtain ⟨ext1, hn1⟩ := copyNodes_nodes_extend e.nodes h
    have hp1 := copyNodes_posns e.nodes h
    obtain ⟨ext2, hn2, hp2⟩ := ih (copyNodes h e.nodes).1 (i + 1)
    refine ⟨ext1 ++ ext2, ?_, ?_⟩
    · show (getTimelineAux (copyNodes h e.nodes).1 cur (i + 1) rest).1.nodes
        = h.nodes ++ (ext1 ++ ext2)
      rw [hn2, hn1, List.append_assoc]
    · show (getTimelineAux (copyNodes h e.nodes).1 cur (i + 1) rest).1.posns = h.posns
      rw [hp2, hp1]

theorem getTimelineAux_ids (cur : Int) (l : List Entry) :
    ∀ (h : Heap) (i : Nat),
      ((getTimelineAux h cur i l).2).map (fun tl => (tl.id, tl.active))
        = (List.range' i l.length).map (fun (j : Nat) => (j, decide ((j : Int) = cur))) := by
  induction l with
  | nil => intro h i; rfl
  | cons e rest ih =>
    intro h i
    show ((i, decide ((i : Int) = cur))
        :: ((getTimelineAux (copyNodes h e.nodes).1 cur (i + 1) rest).2).map
            (fun tl => (tl.id, tl.active)))
      = (List.range' i (rest.length + 1)).map (fun (j : Nat) => (j, decide ((j : Int) = cur)))
    rw [List.range'_succ, List.map_cons, ih (copyNodes h e.nodes).1 (i + 1)]

theorem getTimelineAux_edges (cur : Int) (l : List Entry) :
    ∀ (h : Heap) (i : Nat),
      ((getTimelineAux h cur i l).2).map (fun tl => tl.state.edges)
        = l.map (fun e => e.edges) := by
  induction l with
  | nil => intro h i; rfl
  | cons e rest ih =>
    intro h i
    show (e.edges
        :: ((getTimelineAux (copyNodes h e.nodes).1 cur (i + 1) rest).2).map
            (fun tl => tl.state.edges))
      = e.edges :: rest.map (fun e2 => e2.edges)
    rw [ih (copyNodes h e.nodes).1 (i + 1)]

theorem getTimelineAux_refs_ge (cur : Int) (l : List Entry) :
    ∀ (h : Heap) (i : Nat), ∀ tl ∈ (getTimelineAux h cur i l).2, ∀ x ∈ tl.state.nodes,
      h.nodes.length ≤ x := by
  induction l with
  | nil => intro h i tl htl; simp [getTimelineAux] at htl
  | cons e rest ih =>
    intro h i tl htl x hx
    simp only [getTimelineAux, List.mem_cons] at htl
    rcases htl with rfl | htl
    · exact copyNodes_refs_ge e.nodes h x hx
    · have h1 := ih (copyNodes h e.nodes).1 (i + 1) tl htl x hx
      have h2 := copyNodes_nodes_length_le e.nodes h
      omega

theorem getTimelineAux_observe (cur : Int) (l : List Entry) :
    ∀ (h : Heap) (i : Nat), (∀ e ∈ l, ∀ x ∈ e.nodes, x < h.nodes.length) →
      ((getTimelineAux h cur i l).2).map
          (fun tl => (observeEntry (getTimelineAux h cur i l).1 tl.state).1)
        = l.map (fun e => (observeEntry h e).1) := by
  induction l with
  | nil => intro h i _; rfl
  | cons e rest ih =>
    intro h i hv
    have hve : ∀ x ∈ e.nodes, x < h.nodes.length := hv e (by simp)
    have hvrest : ∀ e2 ∈ rest, ∀ x ∈ e2.nodes, x < (copyNodes h e.nodes).1.nodes.length := by
      intro e2 he2 x hx
      have hx2 := hv e2 (by simp [he2]) x hx
      have hx3 := copyNodes_nodes_length_le e.nodes h
      omega
    obtain ⟨ext, hn, hp⟩ := getTimelineAux_extends cur rest (copyNodes h e.nodes).1 (i + 1)
    simp only [getTimelineAux, List.map_cons]
    congr 1
    · show ((copyNodes h e.nodes).2).map
          (observeNode (getTimelineAux (copyNodes h e.nodes).1 cur (i + 1) rest).1)
        = e.nodes.map (observeNode h)
      calc ((copyNodes h e.nodes).2).map
            (observeNode (getTimelineAux (copyNodes h e.nodes).1 cur (i + 1) rest).1)
          = ((copyNodes h e.nodes).2).map (observeNode (copyNodes h e.nodes).1) := by
            refine List.map_congr_left ?_
            intro x hx
            exact observeNode_mono (copyNodes h e.nodes).1 _ x
              (copyNodes_refs_lt e.nodes h x hx) hn hp
        _ = e.nodes.map (observeNode h) := copyNodes_observe e.nodes h hve
    · calc ((getTimelineAux (copyNodes h e.nodes).1 cur (i + 1) rest).2).map
            (fun tl => (observeEntry (getTimelineAux (copyNodes h e.nodes).1 cur (i + 1) rest).1
              tl.state).1)
          = rest.map (fun e2 => (observeEntry (copyNodes h e.nodes).1 e2).1) :=
            ih (copyNodes h e.nodes).1 (i + 1) hvrest
        _ = rest.map (fun e2 => (observeEntry h e2).1) := by
            refine List.map_congr_left ?_
            intro e2 he2
            show e2.nodes.map (observeNode (copyNodes h e.nodes).1)
              = e2.nodes.map (observeNode h)
            refine List.map_congr_left ?_
            intro x hx
            obtain ⟨ext1, hn1⟩ := copyNodes_nodes_extend e.nodes h
            exact observeNode_mono h (copyNodes h e.nodes).1 x
              (hv e2 (by simp [he2]) x hx) hn1 (copyNodes_posns e.nodes h)

theorem observeNode_set_high (h h2 : Heap) {ext : List NodeObj} (r x : Nat) (v : NodeObj)
    (hn : h2.nodes = h.nodes ++ ext) (hp : h2.posns = h.posns)
    (hx : x < h.nodes.length) (hrge : h.nodes.length ≤ r) :
    observeNode ⟨h2.nodes.set r v, h2.posns⟩ x = observeNode h x := by
  have hne : r ≠ x := by omega
  rw [observeNode_setNode_ne h2 r x v hne]
  exact observeNode_mono h h2 x hx hn hp

/-- C8 counterexample: `getCurrentState` hands back the stored snapshot
itself, not a copy.  In a world whose single stored entry references node
record 1, `getCurrentState` returns that very entry; overwriting the returned
node record (reference 1) changes the observable content of the stored
history from ("A", (0,0)) to ("X", (0,0)). -/
theorem getCurrentState_returns_stored_entry :
    getCurrentState ⟨⟨[⟨"A", 0⟩, ⟨"A", 0⟩], [⟨0, 0⟩]⟩, [⟨[1], []⟩], 0, false, []⟩
        = some ⟨[1], []⟩
    ∧ (observeEntry (⟨⟨[⟨"A", 0⟩, ⟨"A", 0⟩], [⟨0, 0⟩]⟩, [⟨[1], []⟩], 0, false, []⟩
        : World).heap ⟨[1], []⟩).1 = [some ("A", ⟨0, 0⟩)]
    ∧ (observeEntry (setNode ⟨⟨[⟨"A", 0⟩, ⟨"A", 0⟩], [⟨0, 0⟩]⟩, [⟨[1], []⟩], 0, false, []⟩
        1 ⟨"X", 0⟩).heap ⟨[1], []⟩).1 = [some ("X", ⟨0, 0⟩)] := by
  decide

/-- C8 amended: every query leaves the manager cells (`history`,
`currentIndex`, `isTransacting`) unchanged; `getTimeline` returns, for each
stored entry, its index, an `active` mark at `currentIndex`, the same edge
list, and freshly allocated node records whose observable content equals the
stored entry's — so overwriting any timeline-allocated record (reference at
or past the pre-call heap size) leaves the stored history's observable
content intact.  (`getCurrentState`, in contrast, returns the stored entry
itself, as the counterexample shows.) -/
theorem queries_pure_and_timeline_fresh (w : World)
    (hval : ∀ e ∈ w.history, ∀ x ∈ e.nodes, x < w.heap.nodes.length) :
    getCurrentIndex w = w.currentIndex
    ∧ getHistoryLength w = w.history.length
    ∧ (getTimeline w).1.history = w.history
    ∧ (getTimeline w).1.currentIndex = w.currentIndex
    ∧ (getTimeline w).1.isTransacting = w.isTransacting
    ∧ ((getTimeline w).2).map (fun tl => (tl.id, tl.active))
        = (List.range' 0 w.history.length).map
            (fun (j : Nat) => (j, decide ((j : Int) = w.currentIndex)))
    ∧ ((getTimeline w).2).map (fun tl => tl.state.edges) = w.history.map (fun e => e.edges)
    ∧ ((getTimeline w).2).map (fun tl => (observeEntry (getTimeline w).1.heap tl.state).1)
        = w.history.map (fun e => (observeEntry w.heap e).1)
    ∧ (∀ tl ∈ (getTimeline w).2, ∀ x ∈ tl.state.nodes, w.heap.nodes.length ≤ x)
    ∧ (∀ (r : Nat) (v : NodeObj), w.heap.nodes.length ≤ r →
        w.history.map (fun e => (observeEntry (setNode (getTimeline w).1 r v).heap e).1)
          = w.history.map (fun e => (observeEntry w.heap e).1)) := by
  refine ⟨rfl, rfl, rfl, rfl, rfl, ?_, ?_, ?_, ?_, ?_⟩
  · exact getTimelineAux_ids w.currentIndex w.history w.heap 0
  · exact getTimelineAux_edges w.currentIndex w.history w.heap 0
  · exact getTimelineAux_observe w.currentIndex w.history w.heap 0 hval
  · exact getTimelineAux_refs_ge w.currentIndex w.history w.heap 0
  · intro r v hrge
    obtain ⟨ext, hn, hp⟩ := getTimelineAux_extends w.currentIndex w.history w.heap 0
    refine List.map_congr_left ?_
    intro e he
    show e.nodes.map (observeNode
        ⟨(getTimelineAux w.heap w.currentIndex 0 w.history).1.nodes.set r v,
          (getTimelineAux w.heap w.currentIndex 0 w.history).1.posns⟩)
      = e.nodes.map (observeNode w.heap)
    refine List.map_congr_left ?_
    intro x hx
    exact observeNode_set_high w.heap (getTimelineAux w.heap w.currentIndex 0 w.history).1
      r x v hn hp (hval e he x hx) hrge

theorem queries_pure_and_timeline_fresh_witness :
    (∀ e ∈ (⟨⟨[⟨"A", 0⟩], [⟨0, 0⟩]⟩, [⟨[0], [7]⟩], 0, false, []⟩ : World).history,
        ∀ x ∈ e.nodes,
          x < (⟨⟨[⟨"A", 0⟩], [⟨0, 0⟩]⟩, [⟨[0], [7]⟩], 0, false, []⟩ : World).heap.nodes.length)
    ∧ (getTimeline ⟨⟨[⟨"A", 0⟩], [⟨0, 0⟩]⟩, [⟨[0], [7]⟩], 0, false, []⟩).1.history = [⟨[0], [7]⟩]
    ∧ ((getTimeline ⟨⟨[⟨"A", 0⟩], [⟨0, 0⟩]⟩, [⟨[0], [7]⟩], 0, false, []⟩).2).map
        (fun tl => (observeEntry
          (getTimeline ⟨⟨[⟨"A", 0⟩], [⟨0, 0⟩]⟩, [⟨[0], [7]⟩], 0, false, []⟩).1.heap tl.state).1)
      = [⟨[0], [7]⟩].map
          (fun e => (observeEntry (⟨[⟨"A", 0⟩], [⟨0, 0⟩]⟩ : Heap) e).1) := by
  have h := queries_pure_and_timeline_fresh
    ⟨⟨[⟨"A", 0⟩], [⟨0, 0⟩]⟩, [⟨[0], [7]⟩], 0, false, []⟩ (by decide)
  exact ⟨by decide, h.2.2.1, h.2.2.2.2.2.2.2.1⟩

theorem uninitialized_undo_redo_noop_witness :
    undo (useHistoryManager ⟨[], []⟩) = (useHistoryManager ⟨[], []⟩, none)
    ∧ redo (useHistoryManager ⟨[], []⟩) = (useHistoryManager ⟨[], []⟩, none) :=
  ⟨(uninitialized_undo_redo_noop ⟨[], []⟩).1, (uninitialized_undo_redo_noop ⟨[], []⟩).2.1⟩
